import Mathlib

/-!
Verification of the tabinator group rule engine (routes/groups.js,
routes/links.js) against its specification.

The persistence layer stores each group's rules as flat tuples
`(rule_type, match_type, match_value, block_index)` in the `group_rules`
table.  The read routes (`GET /api/groups`, `GET /api/data`,
`GET /api/export?format=tabinator`) fetch those rows with
`ORDER BY rule_type, block_index, match_type` and reassemble nested
include/exclude block structures; the write routes (`POST /api/groups`,
`PUT /api/groups/:id`) flatten submitted block lists back into rows.

Modelling conventions:
* SQL TEXT values are Lean `String`s; `block_index` (INTEGER) is `Int`.
* JS objects built with dynamic keys (`blocks[blockKey]`,
  `block[matchType]`) are association lists that preserve key insertion
  order, exactly like JS plain objects with non-numeric string keys.
* The SQL `ORDER BY` and the JS `Array.prototype.sort` (stable since
  ES2019; the deployment targets Node 20) are modelled as stable
  insertion sort (`List.insertionSort`, which inserts each earlier
  element before later equal ones).
* SQLite compares TEXT with memcmp and JS compares strings by code
  unit; for the ASCII values involved both coincide with the
  lexicographic order on the character list, `charListLt` below.
* The JS bucket key is the string `` `${rule_type}_${block_index}` ``,
  and the sort comparator re-derives the numeric index with
  `parseInt(key.split('_')[1])`.  Since the stored index is an integer
  (its decimal rendering contains no underscore), the key determines
  the pair `(rule_type, block_index)` uniquely and the parsed index is
  exactly `block_index` whenever `rule_type` itself contains no
  underscore (true for every value the write paths ever produce and for
  the rule types considered in the claims).  The bucket key is
  therefore modelled as the pair itself, sorted by its index component.
-/

/-- Lexicographic strict order on character lists: the order SQLite's
memcmp and JS string comparison induce on the ASCII strings involved. -/
def charListLt : List Char → List Char → Bool
  | [], [] => false
  | [], _ :: _ => true
  | _ :: _, [] => false
  | a :: as, b :: bs => if a < b then true else if b < a then false else charListLt as bs

theorem charListLt_irrefl : ∀ l : List Char, charListLt l l = false
  | [] => rfl
  | a :: as => by simp [charListLt, charListLt_irrefl as]

/-- A row of the `group_rules` table, scoped to one group. -/
structure Rule where
  ruleType : String
  matchType : String
  matchValue : String
  blockIndex : Int
deriving DecidableEq, Repr

/-- The `ORDER BY rule_type, block_index, match_type` comparison used by
all three read routes when fetching a group's rules. -/
def ruleLeB (a b : Rule) : Bool :=
  if charListLt a.ruleType.data b.ruleType.data then true
  else if charListLt b.ruleType.data a.ruleType.data then false
  else if a.blockIndex < b.blockIndex then true
  else if b.blockIndex < a.blockIndex then false
  else !charListLt b.matchType.data a.matchType.data

def ruleLE (a b : Rule) : Prop := ruleLeB a b = true

instance : DecidableRel ruleLE := fun a b => inferInstanceAs (Decidable (_ = _))

/-- The rule rows as delivered to the JS assembly loop: the stored rows
sorted by `ORDER BY rule_type, block_index, match_type` (stable). -/
def sqlSort (rules : List Rule) : List Rule := List.insertionSort ruleLE rules

/-- A reconstructed block: a JS object mapping a match type
(`tags` / `names` / `urls` in well-formed data) to the accumulated list
of match values, fields in insertion order. -/
abbrev Block := List (String × List String)

/-- `blocks[blockKey][rule.match_type].push(rule.match_value)`, creating
the field (at the end of the object) if it does not yet exist. -/
def addValue : Block → String → String → Block
  | [], mt, v => [(mt, [v])]
  | (k, vs) :: rest, mt, v =>
      if k = mt then (k, vs ++ [v]) :: rest else (k, vs) :: addValue rest mt v

/-- One bucket of blocks (`includeBlocks` / `excludeBlocks`): a JS object
keyed by `blockKey`, modelled as an association list keyed by the pair
`(rule_type, block_index)` (see the key discussion in the header). -/
abbrev Buckets := List ((String × Int) × Block)

/-- `if (!blocks[blockKey]) blocks[blockKey] = {}` followed by the value
push: update the keyed block in place, or append a fresh one. -/
def addRule : Buckets → String × Int → String → String → Buckets
  | [], key, mt, v => [(key, addValue [] mt v)]
  | (k, blk) :: rest, key, mt, v =>
      if k = key then (k, addValue blk mt v) :: rest
      else (k, blk) :: addRule rest key mt v

/-- The bucketing loop of GET /api/groups (routes/groups.js:37-49):
`rule.rule_type === 'include' ? includeBlocks : excludeBlocks`. -/
def bucketize (rules : List Rule) : Buckets × Buckets :=
  rules.foldl
    (fun acc r =>
      if r.ruleType = "include"
      then (addRule acc.1 (r.ruleType, r.blockIndex) r.matchType r.matchValue, acc.2)
      else (acc.1, addRule acc.2 (r.ruleType, r.blockIndex) r.matchType r.matchValue))
    ([], [])

/-- Bucket-key order used by `Object.keys(...).sort((a, b) => aIndex - bIndex)`:
ascending numeric block index. -/
def bucketLE (a b : (String × Int) × Block) : Prop := a.1.2 ≤ b.1.2

instance : DecidableRel bucketLE := fun a b => inferInstanceAs (Decidable (_ ≤ _))

instance : IsTotal ((String × Int) × Block) bucketLE := ⟨fun a b => Int.le_total a.1.2 b.1.2⟩

instance : IsTrans ((String × Int) × Block) bucketLE := ⟨fun _ _ _ => le_trans⟩

/-- The key sort of routes/groups.js:52-56 / 62-66 (stable, ascending by
the numeric index parsed from the key). -/
def sortBuckets (bs : Buckets) : Buckets := List.insertionSort bucketLE bs

/-- The nested group shape emitted by the read routes.  (`include` and
`exclude` are Lean keywords, hence the field names.) -/
structure AssembledGroup where
  includeBlocks : List Block
  excludeBlocks : List Block
deriving DecidableEq, Repr

/-- The block-reconstruction part of GET /api/groups
(routes/groups.js:30-77): bucket the rule rows, sort each bucket's keys
by numeric index, emit the blocks in that order. -/
def assemble (rules : List Rule) : AssembledGroup :=
  ⟨(sortBuckets (bucketize rules).1).map (·.2),
   (sortBuckets (bucketize rules).2).map (·.2)⟩

/-- The full read path for one group in GET /api/groups: SQL ordering of
the stored rows followed by the JS assembly. -/
def readGroupRules (rules : List Rule) : AssembledGroup := assemble (sqlSort rules)

/-- The same reconstruction as written (a second time, verbatim plus a
redundant `include.length > 0 ? include : []` guard) in GET /api/data
(routes/links.js:61-107).  The bucketing and sorting loops are
textually identical to the GET /api/groups copy. -/
def dataAssemble (rules : List Rule) : AssembledGroup :=
  let inc := (sortBuckets (bucketize rules).1).map (·.2)
  let exc := (sortBuckets (bucketize rules).2).map (·.2)
  ⟨if inc.length > 0 then inc else [], if exc.length > 0 then exc else []⟩

/-- The third copy of the reconstruction, in the tabinator-format export
(routes/links.js:436-479), again verbatim with the same
`length > 0` guard. -/
def exportAssemble (rules : List Rule) : AssembledGroup :=
  let inc := (sortBuckets (bucketize rules).1).map (·.2)
  let exc := (sortBuckets (bucketize rules).2).map (·.2)
  ⟨if inc.length > 0 then inc else [], if exc.length > 0 then exc else []⟩

theorem length_pos_guard {α : Type} (l : List α) : (if l.length > 0 then l else []) = l := by
  cases l <;> simp

/-- C9 -- Assembler copy equivalence: the three independently written
block-reconstruction routines (GET /api/groups, GET /api/data, tabinator
export) compute identical include/exclude block structures on every rule
row sequence. -/
theorem assembler_copies_agree (rules : List Rule) :
    dataAssemble rules = assemble rules ∧ exportAssemble rules = assemble rules ∧
      dataAssemble rules = exportAssemble rules := by
  refine ⟨?_, ?_, ?_⟩ <;>
    simp [dataAssemble, exportAssemble, assemble, length_pos_guard]

/-- C5 counterexample -- the assembler does not fail fast on malformed
tuples: a tuple with unknown `ruleType` (`bogus`) is silently bucketed
as an exclude block, a tuple with unknown `matchType` (`shape`) becomes
a field of that name, and a tuple with negative `blockIndex` is emitted
as an ordinary block sorted before index 0. -/
theorem assemble_malformed_not_rejected :
    assemble [⟨"include", "shape", "v", 0⟩, ⟨"bogus", "tags", "w", 0⟩,
        ⟨"include", "tags", "z", -1⟩] =
      ⟨[[("tags", ["z"])], [("shape", ["v"])]], [[("tags", ["w"])]]⟩ := by
  decide

/-- C5 (amended) -- the assembler is total and classifies every single
tuple without any validation: a tuple whose `ruleType` is not exactly
`include` (unknown values included) lands in the exclude bucket, its
`matchType` is used unchecked as the block field name, and its
`blockIndex` (negative values included) keys the emitted block. -/
theorem assemble_single_rule (r : Rule) :
    assemble [r] =
      if r.ruleType = "include"
      then ⟨[[(r.matchType, [r.matchValue])]], []⟩
      else ⟨[], [[(r.matchType, [r.matchValue])]]⟩ := by
  by_cases h : r.ruleType = "include" <;>
    simp [assemble, bucketize, addRule, addValue, sortBuckets, List.insertionSort,
      sortBuckets, h]

/-- C6 counterexample -- duplicate tuples are not absorbed: two identical
`(include, tags, x)` rules in block 0 yield a block whose `tags` array
lists `x` twice, not once. -/
theorem assemble_duplicate_kept :
    assemble [⟨"include", "tags", "x", 0⟩, ⟨"include", "tags", "x", 0⟩] =
        ⟨[[("tags", ["x", "x"])]], []⟩ ∧
      List.count "x" ["x", "x"] ≠ 1 := by
  constructor
  · decide
  · decide

/-- C6 (amended) -- duplicates are preserved, not collapsed: assembling
two identical tuples raises no error and lists the match value once per
occurrence (array semantics, no dedup). -/
theorem assemble_duplicate_pair (r : Rule) :
    assemble [r, r] =
      if r.ruleType = "include"
      then ⟨[[(r.matchType, [r.matchValue, r.matchValue])]], []⟩
      else ⟨[], [[(r.matchType, [r.matchValue, r.matchValue])]]⟩ := by
  by_cases h : r.ruleType = "include" <;>
    simp [assemble, bucketize, addRule, addValue, sortBuckets, List.insertionSort, h]

/-!
The write path.  POST /api/groups (routes/groups.js:130-192) walks the
submitted `include` array then the submitted `exclude` array with a
`blockIndex` counter and, per block, inserts one `group_rules` row per
value of `block.tags`, then `block.names`, then `block.urls` (each field
only when present as an array), with the match value taken verbatim from
the request body.  PUT /api/groups/:id (routes/groups.js:262-324)
reinserts rules with the verbatim same loops.
-/

/-- A block as submitted in the request body: each of the three fields is
either present as an array (`some`) or absent / not an array (`none`,
skipped by the `block.tags && Array.isArray(block.tags)` guard). -/
structure SubmittedBlock where
  tags : Option (List String)
  names : Option (List String)
  urls : Option (List String)
deriving DecidableEq, Repr

/-- Rows inserted for one field of one block: one row per value, verbatim. -/
def fieldRules (rt : String) (bi : Int) (mt : String) : Option (List String) → List Rule
  | none => []
  | some vs => vs.map fun v => ⟨rt, mt, v, bi⟩

/-- Rows inserted for one submitted block: tags, then names, then urls. -/
def blockRules (rt : String) (bi : Int) (b : SubmittedBlock) : List Rule :=
  fieldRules rt bi "tags" b.tags ++ fieldRules rt bi "names" b.names ++
    fieldRules rt bi "urls" b.urls

/-- The `for (let blockIndex = 0; ...)` insertion loop over one side's
block list, starting at block index `bi`. -/
def flattenFrom (rt : String) (bi : Int) : List SubmittedBlock → List Rule
  | [] => []
  | b :: bs => blockRules rt bi b ++ flattenFrom rt (bi + 1) bs

/-- All rows the group write path inserts for a submitted group: the
include loop followed by the exclude loop, both counting from 0. -/
def groupRulesOf (inc exc : List SubmittedBlock) : List Rule :=
  flattenFrom "include" 0 inc ++ flattenFrom "exclude" 0 exc

/-- A match value is a non-empty trimmed string (the invariant claimed in
the spec's data model). -/
def trimmedNonEmpty (s : String) : Prop := s.trim = s ∧ s ≠ ""

/-- C7 counterexample -- the write path stores match values verbatim with
no validation: submitting an include block whose `tags` array holds the
empty string stores a rule row whose match value is `""`, which is not a
non-empty trimmed string. -/
theorem groupRules_stores_empty_value :
    groupRulesOf [⟨some [""], none, none⟩] [] = [⟨"include", "tags", "", 0⟩] ∧
      ¬ trimmedNonEmpty "" := by
  refine ⟨rfl, fun h => h.2 rfl⟩

theorem mem_fieldRules_value {r : Rule} {rt : String} {bi : Int} {mt : String}
    {o : Option (List String)} (h : r ∈ fieldRules rt bi mt o) :
    r.matchValue ∈ o.getD [] := by
  cases o with
  | none => cases h
  | some vs =>
      simp only [fieldRules, List.mem_map] at h
      obtain ⟨v, hv, rfl⟩ := h
      simpa using hv

theorem mem_blockRules_value {r : Rule} {rt : String} {bi : Int} {b : SubmittedBlock}
    (h : r ∈ blockRules rt bi b) :
    r.matchValue ∈ b.tags.getD [] ∨ r.matchValue ∈ b.names.getD [] ∨
      r.matchValue ∈ b.urls.getD [] := by
  rw [blockRules] at h
  rw [List.mem_append, List.mem_append] at h
  rcases h with (h | h) | h
  · exact Or.inl (mem_fieldRules_value h)
  · exact Or.inr (Or.inl (mem_fieldRules_value h))
  · exact Or.inr (Or.inr (mem_fieldRules_value h))

theorem mem_flattenFrom_value {r : Rule} {rt : String} {bi : Int}
    {bs : List SubmittedBlock} (h : r ∈ flattenFrom rt bi bs) :
    ∃ b ∈ bs, r.matchValue ∈ b.tags.getD [] ∨ r.matchValue ∈ b.names.getD [] ∨
      r.matchValue ∈ b.urls.getD [] := by
  induction bs generalizing bi with
  | nil => simp [flattenFrom] at h
  | cons b bs ih =>
      simp only [flattenFrom, List.mem_append] at h
      rcases h with h | h
      · exact ⟨b, List.mem_cons_self .., mem_blockRules_value h⟩
      · obtain ⟨b', hb', hv⟩ := ih h
        exact ⟨b', List.mem_cons_of_mem _ hb', hv⟩

/-- C7 (amended) -- every match value the group write path stores is one
of the strings submitted in some block's `tags`, `names` or `urls`
array, stored exactly as submitted (verbatim: no trimming, no
emptiness or whitespace check). -/
theorem groupRules_values_verbatim (inc exc : List SubmittedBlock) (r : Rule)
    (h : r ∈ groupRulesOf inc exc) :
    ∃ b, (b ∈ inc ∨ b ∈ exc) ∧
      (r.matchValue ∈ b.tags.getD [] ∨ r.matchValue ∈ b.names.getD [] ∨
        r.matchValue ∈ b.urls.getD []) := by
  simp only [groupRulesOf, List.mem_append] at h
  rcases h with h | h
  · obtain ⟨b, hb, hv⟩ := mem_flattenFrom_value h
    exact ⟨b, Or.inl hb, hv⟩
  · obtain ⟨b, hb, hv⟩ := mem_flattenFrom_value h
    exact ⟨b, Or.inr hb, hv⟩

/-- C7 witness -- the amended statement at a concrete input: the stored
value `x` comes verbatim from the submitted include block. -/
theorem groupRules_values_verbatim_witness :
    ∃ b, (b ∈ [(⟨some ["x"], none, none⟩ : SubmittedBlock)] ∨ b ∈ ([] : List SubmittedBlock)) ∧
      ((Rule.mk "include" "tags" "x" 0).matchValue ∈ b.tags.getD [] ∨
        (Rule.mk "include" "tags" "x" 0).matchValue ∈ b.names.getD [] ∨
        (Rule.mk "include" "tags" "x" 0).matchValue ∈ b.urls.getD []) :=
  groupRules_values_verbatim [⟨some ["x"], none, none⟩] [] ⟨"include", "tags", "x", 0⟩
    (by decide)

/-!
Group update and delete (C8).  The `group_rules` table across groups is
modelled as a list of `(group_id, rule)` rows.  PUT /api/groups/:id
first runs `DELETE FROM group_rules WHERE group_id = ?`
(routes/groups.js:255-260) and then reinserts the rows derived from the
submitted blocks (routes/groups.js:262-324, loops verbatim identical to
the POST loops embedded as `groupRulesOf`).
-/

/-- The `group_rules` rows for the whole table after PUT /api/groups/:id
succeeds for group `gid`. -/
def putGroupRules (db : List (Int × Rule)) (gid : Int) (inc exc : List SubmittedBlock) :
    List (Int × Rule) :=
  db.filter (fun p => p.1 ≠ gid) ++ (groupRulesOf inc exc).map (fun r => (gid, r))

/-- Modelled from the spec: DELETE /api/groups/:id deletes the group row,
and the `group_rules` schema (database/schema.sql, not part of the
source tree; the route comment says `CASCADE will handle rules`)
cascades the delete to all of the group's rule rows. -/
def deleteGroupRules (db : List (Int × Rule)) (gid : Int) : List (Int × Rule) :=
  db.filter (fun p => p.1 ≠ gid)

/-- C8 -- replace-all update: after a successful PUT the rows stored for
the group are exactly those derived from the newly submitted include and
exclude block lists (every prior row for the group is gone), rows of
other groups are untouched, and deleting a group removes all of its rule
rows. -/
theorem put_replaces_all (db : List (Int × Rule)) (gid : Int)
    (inc exc : List SubmittedBlock) :
    ((putGroupRules db gid inc exc).filter (fun p => p.1 = gid)).map (·.2) =
        groupRulesOf inc exc ∧
      (putGroupRules db gid inc exc).filter (fun p => p.1 ≠ gid) =
        db.filter (fun p => p.1 ≠ gid) ∧
      (deleteGroupRules db gid).filter (fun p => p.1 = gid) = [] := by
  refine ⟨?_, ?_, ?_⟩
  · rw [putGroupRules, List.filter_append]
    have h1 : (db.filter (fun p => p.1 ≠ gid)).filter (fun p => p.1 = gid) = [] := by
      apply List.filter_eq_nil_iff.mpr
      intro p hp
      rw [List.mem_filter] at hp
      simpa using hp.2
    have h2 : (((groupRulesOf inc exc).map (fun r => (gid, r))).filter
          (fun p => p.1 = gid)) = (groupRulesOf inc exc).map (fun r => (gid, r)) := by
      apply List.filter_eq_self.mpr
      intro p hp
      rw [List.mem_map] at hp
      obtain ⟨r, _, rfl⟩ := hp
      simp
    rw [h1, h2, List.nil_append, List.map_map]
    simp
  · rw [putGroupRules, List.filter_append]
    have h2 : (((groupRulesOf inc exc).map (fun r => (gid, r))).filter
          (fun p => p.1 ≠ gid)) = [] := by
      apply List.filter_eq_nil_iff.mpr
      intro p hp
      rw [List.mem_map] at hp
      obtain ⟨r, _, rfl⟩ := hp
      simp
    have h1 : ((db.filter (fun p => p.1 ≠ gid)).filter (fun p => p.1 ≠ gid)) =
        db.filter (fun p => p.1 ≠ gid) := by
      apply List.filter_eq_self.mpr
      intro p hp
      rw [List.mem_filter] at hp
      exact hp.2
    rw [h1, h2, List.append_nil]
  · apply List.filter_eq_nil_iff.mpr
    intro p hp
    rw [deleteGroupRules, List.mem_filter] at hp
    simpa using hp.2

/-!
The match evaluator (C2).  Group membership is evaluated in the
frontend (`app/index.html`), which is not part of the source tree, so
the evaluator is modelled from the spec's Match Evaluator definitions
(blockMatches / includeMatches / excludeMatches / matches): each
include block must match (AND across include blocks, vacuously true
when there are none) and no exclude block may match (OR across exclude
blocks, vacuously false when there are none).  The repository README's
Group Filtering bullet instead speaks of OR logic between include
blocks; with the frontend code absent, no in-tree code decides between
the two, and this model follows the spec's words.
-/

/-- A link as the evaluator sees it: name, URL, and tag list. -/
structure Link where
  name : String
  url : String
  tags : List String
deriving DecidableEq, Repr

/-- An assembled match block as the evaluator consumes it: three match
value sets (absent JSON fields read as empty). -/
structure MatchBlock where
  tags : List String
  names : List String
  urls : List String
deriving DecidableEq, Repr

/-- A group definition as the evaluator consumes it. -/
structure EvalGroup where
  name : String
  includeBlocks : List MatchBlock
  excludeBlocks : List MatchBlock
deriving DecidableEq, Repr

/-- Modelled from the spec: a block matches a link when some block tag is
among the link's tags, or the link's name is among the block's names, or
the link's URL is among the block's urls (exact, case-sensitive
equality); a block with all three sets empty matches vacuously. -/
def blockMatches (l : Link) (b : MatchBlock) : Bool :=
  if b.tags.isEmpty && b.names.isEmpty && b.urls.isEmpty then true
  else b.tags.any (fun t => l.tags.contains t) || b.names.contains l.name ||
    b.urls.contains l.url

/-- Modelled from the spec: includeMatches -- a group with no include
blocks restricts nothing (vacuous AND, true); otherwise every include
block must match the link (AND over all blocks in group.include). -/
def includeMatches (l : Link) (g : EvalGroup) : Bool :=
  if g.includeBlocks.isEmpty then true else g.includeBlocks.all (blockMatches l)

/-- Modelled from the spec: excludeMatches -- vacuously false with no
exclude blocks; otherwise true when any exclude block matches the link
(OR over all blocks in group.exclude). -/
def excludeMatches (l : Link) (g : EvalGroup) : Bool :=
  g.excludeBlocks.any (blockMatches l)

/-- Modelled from the spec: the evaluator itself lives in
`app/index.html`, which is missing from the source tree; this follows
the spec's Match Evaluator contract,
`matches(link, group) = includeMatches AND NOT excludeMatches`. -/
def evalMatches (l : Link) (g : EvalGroup) : Bool :=
  includeMatches l g && !(excludeMatches l g)

/-- C2 -- match evaluator semantics: a link matches a group iff every
include block matches it (AND across include blocks, vacuously true
when the include list is empty) and no exclude block matches it (OR
across exclude blocks, vacuously false when the exclude list is
empty). -/
theorem evalMatches_iff (l : Link) (g : EvalGroup) :
    evalMatches l g = true ↔
      (∀ b ∈ g.includeBlocks, blockMatches l b = true) ∧
        ∀ b ∈ g.excludeBlocks, blockMatches l b = false := by
  simp only [evalMatches, includeMatches, excludeMatches, Bool.and_eq_true,
    Bool.not_eq_true']
  constructor
  · rintro ⟨hinc, hexc⟩
    constructor
    · by_cases he : g.includeBlocks.isEmpty
      · intro b hb
        rw [List.isEmpty_iff] at he
        rw [he] at hb
        cases hb
      · rw [if_neg he, List.all_eq_true] at hinc
        exact hinc
    · rw [List.any_eq_false] at hexc
      intro b hb
      simpa using hexc b hb
  · rintro ⟨hinc, hexc⟩
    constructor
    · by_cases he : g.includeBlocks.isEmpty
      · rw [if_pos he]
      · rw [if_neg he, List.all_eq_true]
        exact hinc
    · rw [List.any_eq_false]
      intro b hb
      simpa using hexc b hb

/-!
Tag round-trip at the read boundary (C10).  GET /api/data
(routes/links.js:24-44) selects `GROUP_CONCAT(t.name) as tags` (comma
separator) and the formatter returns
`link.tags ? link.tags.split(',') : []`; the export route
(routes/links.js:382-402) does the same.  Strings are modelled at the
character-list level.  The falsy test is on the concatenated string
itself: it takes the `[]` branch both when `GROUP_CONCAT` is SQL NULL
(a link with no tags) and when it yields the empty string (a link whose
only tag has a zero-length name, storable because the migration script
inserts tag names verbatim).
-/

/-- Prepend a character to the first piece of a split result (the split
of a non-empty suffix is never empty, so the `[]` case is unreachable). -/
def consHead (c : Char) : List (List Char) → List (List Char)
  | [] => [[c]]
  | f :: rest => (c :: f) :: rest

/-- JS `s.split(',')` on the character list of `s`. -/
def splitComma : List Char → List (List Char)
  | [] => [[]]
  | c :: cs => if c = ',' then [] :: splitComma cs else consHead c (splitComma cs)

/-- SQL `GROUP_CONCAT(name)`: the stored tag names joined with commas. -/
def joinComma : List (List Char) → List Char
  | [] => []
  | [t] => t
  | t :: ts => t ++ ',' :: joinComma ts

/-- The tag list GET /api/data returns for a link whose stored tag names
are `ts` (in the order GROUP_CONCAT emits them): `[]` when the joined
string is falsy (NULL for no tags, modelled as `ts = []`, or the empty
string), otherwise the comma split of the joined string. -/
def dataTags (ts : List (List Char)) : List (List Char) :=
  if (joinComma ts).isEmpty then [] else splitComma (joinComma ts)

theorem consHead_ne_nil (c : Char) (l : List (List Char)) : consHead c l ≠ [] := by
  cases l <;> simp [consHead]

theorem splitComma_ne_nil : ∀ cs : List Char, splitComma cs ≠ []
  | [] => by simp [splitComma]
  | c :: cs => by
      rw [splitComma]
      split
      · simp
      · exact consHead_ne_nil c (splitComma cs)

theorem consHead_append (c : Char) {l : List (List Char)} (h : l ≠ [])
    (l2 : List (List Char)) : consHead c (l ++ l2) = consHead c l ++ l2 := by
  cases l with
  | nil => exact absurd rfl h
  | cons f rest => simp [consHead]

theorem splitComma_append_comma (t z : List Char) :
    splitComma (t ++ ',' :: z) = splitComma t ++ splitComma z := by
  induction t with
  | nil => simp [splitComma]
  | cons c cs ih =>
      rw [List.cons_append, splitComma, splitComma, ih]
      by_cases hc : c = ','
      · simp [hc]
      · simp only [if_neg hc]
        exact consHead_append c (splitComma_ne_nil cs) (splitComma z)

theorem splitComma_no_comma {t : List Char} (h : ',' ∉ t) : splitComma t = [t] := by
  induction t with
  | nil => rfl
  | cons c cs ih =>
      simp only [List.mem_cons, not_or] at h
      rw [splitComma, if_neg (fun hc => h.1 hc.symm), ih h.2]
      rfl

theorem splitComma_joinComma :
    ∀ ts : List (List Char), ts ≠ [] → splitComma (joinComma ts) = (ts.map splitComma).flatten
  | [], h => absurd rfl h
  | [t], _ => by simp [joinComma]
  | t :: t' :: ts, _ => by
      rw [show joinComma (t :: t' :: ts) = t ++ ',' :: joinComma (t' :: ts) from rfl,
        splitComma_append_comma, splitComma_joinComma (t' :: ts) (by simp)]
      simp

/-- C10 counterexample -- a link whose single stored tag name is the
zero-length string has comma-free stored names, yet the returned tag
list is `[]`, not the stored tag set: GROUP_CONCAT yields the empty
string, which is falsy, so the split never runs. -/
theorem dataTags_empty_name_dropped :
    dataTags [([] : List Char)] = [] ∧ [([] : List Char)] ≠ ([] : List (List Char)) ∧
      ∀ t ∈ [([] : List Char)], ',' ∉ t := by
  refine ⟨rfl, by simp, by simp⟩

/-- C10 (amended) -- tag round-trip at the read boundary: whenever the
comma-join of the stored tag names is non-empty, the returned tag list
is its comma re-split, so each stored name contributes its comma-split
pieces (a name containing a comma comes back as several tags) and
comma-free stored names round-trip exactly; when the join is empty (no
tags, or a single zero-length tag name) the returned list is `[]`. -/
theorem dataTags_roundtrip (ts : List (List Char)) :
    (joinComma ts ≠ [] → dataTags ts = (ts.map splitComma).flatten) ∧
      ((∀ t ∈ ts, ',' ∉ t) → joinComma ts ≠ [] → dataTags ts = ts) ∧
      (joinComma ts = [] → dataTags ts = []) := by
  have hne : joinComma ts ≠ [] → ts ≠ [] := by
    intro h he
    rw [he] at h
    exact h rfl
  have h1 : joinComma ts ≠ [] → dataTags ts = (ts.map splitComma).flatten := by
    intro h
    rw [dataTags, if_neg (by simpa [List.isEmpty_iff] using h)]
    exact splitComma_joinComma ts (hne h)
  refine ⟨h1, fun hnc h => ?_, fun h => ?_⟩
  · rw [h1 h]
    have h2 : ts.map splitComma = ts.map (fun t => [t]) :=
      List.map_congr_left fun t ht => splitComma_no_comma (hnc t ht)
    rw [h2]
    have h3 : ∀ l : List (List Char), (l.map (fun t => [t])).flatten = l := by
      intro l
      induction l with
      | nil => rfl
      | cons t l ih => simp [ih]
    exact h3 ts
  · rw [dataTags, if_pos (by simp [List.isEmpty_iff, h])]

/-- C10 witness -- the amended statement at concrete inputs: stored tags
`w` and `a,b` come back as `w`, `a`, `b`; comma-free stored tags come
back unchanged. -/
theorem dataTags_roundtrip_witness :
    dataTags [['w'], ['a', ',', 'b']] = [['w'], ['a'], ['b']] ∧
      dataTags [['w'], ['x']] = [['w'], ['x']] := by
  constructor
  · rw [(dataTags_roundtrip [['w'], ['a', ',', 'b']]).1 (by decide)]
    decide
  · exact (dataTags_roundtrip [['w'], ['x']]).2.1 (by decide) (by decide)

/-!
Field presence in assembled blocks (C4).  The bucketing loop creates a
block field only when a rule of that match type is encountered
(`if (!blocks[blockKey][rule.match_type]) ... = []` then push), so a
match type with no rule in a block yields no field at all, and every
field that does exist holds at least one value.
-/

theorem addValue_prop {mts : List String} {mt v : String} {blk : Block}
    (hblk : ∀ p ∈ blk, p.2 ≠ [] ∧ p.1 ∈ mts) (hmt : mt ∈ mts) :
    ∀ p ∈ addValue blk mt v, p.2 ≠ [] ∧ p.1 ∈ mts := by
  induction blk with
  | nil =>
      intro p hp
      simp only [addValue, List.mem_singleton] at hp
      subst hp
      exact ⟨by simp, hmt⟩
  | cons e rest ih =>
      obtain ⟨k, vs⟩ := e
      intro p hp
      rw [addValue] at hp
      by_cases hk : k = mt
      · rw [if_pos hk] at hp
        rcases List.mem_cons.mp hp with h | h
        · subst h
          exact ⟨by simp, (hblk (k, vs) (List.mem_cons_self ..)).2⟩
        · exact hblk p (List.mem_cons_of_mem _ h)
      · rw [if_neg hk] at hp
        rcases List.mem_cons.mp hp with h | h
        · subst h
          exact hblk (k, vs) (List.mem_cons_self ..)
        · exact ih (fun q hq => hblk q (List.mem_cons_of_mem _ hq)) p h

theorem addRule_prop {mts : List String} {key : String × Int} {mt v : String}
    {bs : Buckets} (hbs : ∀ en ∈ bs, ∀ p ∈ en.2, p.2 ≠ [] ∧ p.1 ∈ mts)
    (hmt : mt ∈ mts) :
    ∀ en ∈ addRule bs key mt v, ∀ p ∈ en.2, p.2 ≠ [] ∧ p.1 ∈ mts := by
  induction bs with
  | nil =>
      intro en hen
      simp only [addRule, List.mem_singleton] at hen
      subst hen
      exact addValue_prop (by simp) hmt
  | cons e rest ih =>
      obtain ⟨k, blk⟩ := e
      intro en hen
      rw [addRule] at hen
      by_cases hk : k = key
      · rw [if_pos hk] at hen
        rcases List.mem_cons.mp hen with h | h
        · subst h
          exact addValue_prop (hbs (k, blk) (List.mem_cons_self ..)) hmt
        · exact hbs en (List.mem_cons_of_mem _ h)
      · rw [if_neg hk] at hen
        rcases List.mem_cons.mp hen with h | h
        · subst h
          exact hbs (k, blk) (List.mem_cons_self ..)
        · exact ih (fun q hq => hbs q (List.mem_cons_of_mem _ hq)) en h

theorem bucketize_fold_prop :
    ∀ (mts : List String) (rules : List Rule) (acc : Buckets × Buckets),
      (∀ r ∈ rules, r.matchType ∈ mts) →
      (∀ en ∈ acc.1, ∀ p ∈ en.2, p.2 ≠ [] ∧ p.1 ∈ mts) →
      (∀ en ∈ acc.2, ∀ p ∈ en.2, p.2 ≠ [] ∧ p.1 ∈ mts) →
      (∀ en ∈ (rules.foldl
          (fun acc r =>
            if r.ruleType = "include"
            then (addRule acc.1 (r.ruleType, r.blockIndex) r.matchType r.matchValue, acc.2)
            else (acc.1, addRule acc.2 (r.ruleType, r.blockIndex) r.matchType r.matchValue))
          acc).1, ∀ p ∈ en.2, p.2 ≠ [] ∧ p.1 ∈ mts) ∧
      (∀ en ∈ (rules.foldl
          (fun acc r =>
            if r.ruleType = "include"
            then (addRule acc.1 (r.ruleType, r.blockIndex) r.matchType r.matchValue, acc.2)
            else (acc.1, addRule acc.2 (r.ruleType, r.blockIndex) r.matchType r.matchValue))
          acc).2, ∀ p ∈ en.2, p.2 ≠ [] ∧ p.1 ∈ mts)
  | _, [], acc, _, h1, h2 => ⟨h1, h2⟩
  | mts, r :: rules, acc, hr, h1, h2 => by
      rw [List.foldl_cons]
      by_cases hrt : r.ruleType = "include"
      · rw [if_pos hrt]
        exact bucketize_fold_prop mts rules _
          (fun q hq => hr q (List.mem_cons_of_mem _ hq))
          (addRule_prop h1 (hr r (List.mem_cons_self ..)))
          h2
      · rw [if_neg hrt]
        exact bucketize_fold_prop mts rules _
          (fun q hq => hr q (List.mem_cons_of_mem _ hq))
          h1
          (addRule_prop h2 (hr r (List.mem_cons_self ..)))

/-- C4 counterexample -- emitted blocks do not always carry all three
fields: assembling a single tags rule yields a block whose `names` and
`urls` fields are absent entirely (not present as empty arrays). -/
theorem assemble_fields_absent :
    assemble [⟨"include", "tags", "a", 0⟩] = ⟨[[("tags", ["a"])]], []⟩ ∧
      List.lookup "names" [("tags", ["a"])] = none ∧
      List.lookup "urls" [("tags", ["a"])] = none := by
  refine ⟨by decide, rfl, rfl⟩

/-- C4 (amended) -- every field present in an emitted include or exclude
block is a non-empty array whose name is the match type of some input
rule; match types with no rule in a block produce no field at all
(fields are created only on the first rule of that match type). -/
theorem assemble_fields_nonempty (rules : List Rule) (b : Block)
    (hb : b ∈ (assemble rules).includeBlocks ∨ b ∈ (assemble rules).excludeBlocks)
    (p : String × List String) (hp : p ∈ b) :
    p.2 ≠ [] ∧ ∃ r ∈ rules, r.matchType = p.1 := by
  have hfold := bucketize_fold_prop (rules.map (·.matchType)) rules ([], [])
    (fun r hr => List.mem_map.mpr ⟨r, hr, rfl⟩) (by simp) (by simp)
  have hmain : p.2 ≠ [] ∧ p.1 ∈ rules.map (·.matchType) := by
    rcases hb with hb | hb
    · simp only [assemble, List.mem_map] at hb
      obtain ⟨en, hen, rfl⟩ := hb
      rw [sortBuckets, List.mem_insertionSort] at hen
      exact hfold.1 en hen p hp
    · simp only [assemble, List.mem_map] at hb
      obtain ⟨en, hen, rfl⟩ := hb
      rw [sortBuckets, List.mem_insertionSort] at hen
      exact hfold.2 en hen p hp
  obtain ⟨r, hr, hr2⟩ := List.mem_map.mp hmain.2
  exact ⟨hmain.1, r, hr, hr2⟩

/-- C4 witness -- the amended statement at a concrete input. -/
theorem assemble_fields_nonempty_witness :
    (["a"] : List String) ≠ [] ∧
      ∃ r ∈ [(Rule.mk "include" "tags" "a" 0)], r.matchType = "tags" :=
  assemble_fields_nonempty [⟨"include", "tags", "a", 0⟩] [("tags", ["a"])]
    (by left; decide) ("tags", ["a"]) (by decide)

/-!
Assembler block ordering (C3).  Claim: within each bucket the assembler
groups rules by block index, sorts the distinct indices ascending, and
emits exactly one block per index that has rules (gaps produce no
block).  The specification-side reconstruction of the expected index
sequence is `specSortedIndices` below; the claim is the statement that
the key sequence of the sorted bucket equals it.
-/

/-- The step function of the bucketing loop (the lambda inside
`bucketize`, named for the induction proofs). -/
def bucketStep (acc : Buckets × Buckets) (r : Rule) : Buckets × Buckets :=
  if r.ruleType = "include"
  then (addRule acc.1 (r.ruleType, r.blockIndex) r.matchType r.matchValue, acc.2)
  else (acc.1, addRule acc.2 (r.ruleType, r.blockIndex) r.matchType r.matchValue)

theorem bucketize_eq_foldl (rules : List Rule) :
    bucketize rules = rules.foldl bucketStep ([], []) := rfl

/-- Sequence of keys of a bucket, in insertion order. -/
def keysOf (bs : Buckets) : List (String × Int) := bs.map (·.1)

theorem keysOf_addRule (bs : Buckets) (key : String × Int) (mt v : String) :
    keysOf (addRule bs key mt v) =
      if key ∈ keysOf bs then keysOf bs else keysOf bs ++ [key] := by
  induction bs with
  | nil => simp [addRule, keysOf]
  | cons e rest ih =>
      obtain ⟨k, blk⟩ := e
      rw [addRule]
      by_cases hk : k = key
      · subst hk
        simp [keysOf, List.mem_cons]
      · rw [if_neg hk]
        have hne : ¬ key = k := fun h => hk h.symm
        by_cases hm : key ∈ keysOf rest
        · have hmem : key ∈ keysOf ((k, blk) :: rest) := by
            simp only [keysOf, List.map_cons, List.mem_cons]
            exact Or.inr hm
          rw [if_pos hmem]
          show k :: keysOf (addRule rest key mt v) = k :: keysOf rest
          rw [ih, if_pos hm]
        · have hmem : ¬ key ∈ keysOf ((k, blk) :: rest) := by
            simp only [keysOf, List.map_cons, List.mem_cons]
            rintro (h | h)
            · exact hne h
            · exact hm h
          rw [if_neg hmem]
          show k :: keysOf (addRule rest key mt v) = (k, blk).1 :: keysOf rest ++ [key]
          rw [ih, if_neg hm]
          rfl

theorem mem_keysOf_addRule {key' : String × Int} (bs : Buckets) (key : String × Int)
    (mt v : String) :
    key' ∈ keysOf (addRule bs key mt v) ↔ key' ∈ keysOf bs ∨ key' = key := by
  rw [keysOf_addRule]
  by_cases hm : key ∈ keysOf bs
  · rw [if_pos hm]
    constructor
    · exact Or.inl
    · rintro (h | rfl)
      · exact h
      · exact hm
  · rw [if_neg hm]
    simp

theorem nodup_keysOf_addRule {bs : Buckets} (h : (keysOf bs).Nodup)
    (key : String × Int) (mt v : String) : (keysOf (addRule bs key mt v)).Nodup := by
  rw [keysOf_addRule]
  by_cases hm : key ∈ keysOf bs
  · rwa [if_pos hm]
  · rw [if_neg hm]
    simp [List.nodup_append, h, hm]

theorem bucketize_fold_keys :
    ∀ (rules : List Rule) (acc : Buckets × Buckets),
      (∀ key, key ∈ keysOf (rules.foldl bucketStep acc).1 ↔
        key ∈ keysOf acc.1 ∨
          ∃ r ∈ rules, r.ruleType = "include" ∧ key = (r.ruleType, r.blockIndex)) ∧
      (∀ key, key ∈ keysOf (rules.foldl bucketStep acc).2 ↔
        key ∈ keysOf acc.2 ∨
          ∃ r ∈ rules, r.ruleType ≠ "include" ∧ key = (r.ruleType, r.blockIndex)) ∧
      ((keysOf acc.1).Nodup → (keysOf (rules.foldl bucketStep acc).1).Nodup) ∧
      ((keysOf acc.2).Nodup → (keysOf (rules.foldl bucketStep acc).2).Nodup)
  | [], acc => by simp
  | r :: rules, acc => by
      rw [List.foldl_cons]
      obtain ⟨ih1, ih2, ih3, ih4⟩ := bucketize_fold_keys rules (bucketStep acc r)
      by_cases hrt : r.ruleType = "include"
      · refine ⟨fun key => ?_, fun key => ?_, fun hnd => ?_, fun hnd => ?_⟩
        · rw [ih1 key]
          simp only [bucketStep, if_pos hrt]
          rw [mem_keysOf_addRule]
          constructor
          · rintro ((h | rfl) | ⟨r', hr', h1, h2⟩)
            · exact Or.inl h
            · exact Or.inr ⟨r, List.mem_cons_self .., hrt, rfl⟩
            · exact Or.inr ⟨r', List.mem_cons_of_mem _ hr', h1, h2⟩
          · rintro (h | ⟨r', hr', h1, h2⟩)
            · exact Or.inl (Or.inl h)
            · rcases List.mem_cons.mp hr' with rfl | hr'
              · exact Or.inl (Or.inr h2)
              · exact Or.inr ⟨r', hr', h1, h2⟩
        · rw [ih2 key]
          simp only [bucketStep, if_pos hrt]
          constructor
          · rintro (h | ⟨r', hr', h1, h2⟩)
            · exact Or.inl h
            · exact Or.inr ⟨r', List.mem_cons_of_mem _ hr', h1, h2⟩
          · rintro (h | ⟨r', hr', h1, h2⟩)
            · exact Or.inl h
            · rcases List.mem_cons.mp hr' with rfl | hr'
              · exact absurd hrt h1
              · exact Or.inr ⟨r', hr', h1, h2⟩
        · refine ih3 ?_
          simp only [bucketStep, if_pos hrt]
          exact nodup_keysOf_addRule hnd _ _ _
        · refine ih4 ?_
          simpa only [bucketStep, if_pos hrt] using hnd
      · refine ⟨fun key => ?_, fun key => ?_, fun hnd => ?_, fun hnd => ?_⟩
        · rw [ih1 key]
          simp only [bucketStep, if_neg hrt]
          constructor
          · rintro (h | ⟨r', hr', h1, h2⟩)
            · exact Or.inl h
            · exact Or.inr ⟨r', List.mem_cons_of_mem _ hr', h1, h2⟩
          · rintro (h | ⟨r', hr', h1, h2⟩)
            · exact Or.inl h
            · rcases List.mem_cons.mp hr' with rfl | hr'
              · exact absurd h1 hrt
              · exact Or.inr ⟨r', hr', h1, h2⟩
        · rw [ih2 key]
          simp only [bucketStep, if_neg hrt]
          rw [mem_keysOf_addRule]
          constructor
          · rintro ((h | rfl) | ⟨r', hr', h1, h2⟩)
            · exact Or.inl h
            · exact Or.inr ⟨r, List.mem_cons_self .., hrt, rfl⟩
            · exact Or.inr ⟨r', List.mem_cons_of_mem _ hr', h1, h2⟩
          · rintro (h | ⟨r', hr', h1, h2⟩)
            · exact Or.inl (Or.inl h)
            · rcases List.mem_cons.mp hr' with rfl | hr'
              · exact Or.inl (Or.inr h2)
              · exact Or.inr ⟨r', hr', h1, h2⟩
        · refine ih3 ?_
          simpa only [bucketStep, if_neg hrt] using hnd
        · refine ih4 ?_
          simp only [bucketStep, if_neg hrt]
          exact nodup_keysOf_addRule hnd _ _ _

theorem sorted_lt_eq_of_mem_iff :
    ∀ {l1 l2 : List Int}, l1.Pairwise (· < ·) → l2.Pairwise (· < ·) →
      (∀ x, x ∈ l1 ↔ x ∈ l2) → l1 = l2
  | [], [], _, _, _ => rfl
  | [], b :: _, _, _, hm => absurd ((hm b).mpr (List.mem_cons_self ..)) (List.not_mem_nil b)
  | a :: _, [], _, _, hm => absurd ((hm a).mp (List.mem_cons_self ..)) (List.not_mem_nil a)
  | a :: t1, b :: t2, h1, h2, hm => by
      have hab : a = b := by
        by_contra hne
        have ha2 : a ∈ t2 := by
          rcases List.mem_cons.mp ((hm a).mp (List.mem_cons_self ..)) with h | h
          · exact absurd h hne
          · exact h
        have hb1 : b ∈ t1 := by
          rcases List.mem_cons.mp ((hm b).mpr (List.mem_cons_self ..)) with h | h
          · exact absurd h.symm hne
          · exact h
        exact absurd (((List.pairwise_cons.mp h1).1 b hb1).trans
          ((List.pairwise_cons.mp h2).1 a ha2)) (lt_irrefl a)
      subst hab
      have ht : ∀ x, x ∈ t1 ↔ x ∈ t2 := by
        intro x
        constructor
        · intro hx
          rcases List.mem_cons.mp ((hm x).mp (List.mem_cons_of_mem _ hx)) with rfl | h
          · exact absurd ((List.pairwise_cons.mp h1).1 x hx) (lt_irrefl x)
          · exact h
        · intro hx
          rcases List.mem_cons.mp ((hm x).mpr (List.mem_cons_of_mem _ hx)) with rfl | h
          · exact absurd ((List.pairwise_cons.mp h2).1 x hx) (lt_irrefl x)
          · exact h
      rw [sorted_lt_eq_of_mem_iff (List.pairwise_cons.mp h1).2
        (List.pairwise_cons.mp h2).2 ht]

/-- Specification-side expected index sequence for one bucket: the
distinct block indices of the rules of that rule type, sorted
ascending. -/
def specSortedIndices (rules : List Rule) (rt : String) : List Int :=
  List.insertionSort (· ≤ ·)
    (((rules.filter (fun r => r.ruleType = rt)).map (·.blockIndex)).dedup)

theorem sorted_bucket_idx_eq (bkt : Buckets) (rt0 : String) (rules : List Rule)
    (hnd : (keysOf bkt).Nodup)
    (hmem : ∀ key, key ∈ keysOf bkt ↔
      ∃ r ∈ rules, r.ruleType = rt0 ∧ key = (r.ruleType, r.blockIndex)) :
    (sortBuckets bkt).map (·.1.2) = specSortedIndices rules rt0 := by
  have hperm : List.Perm (sortBuckets bkt) bkt := List.perm_insertionSort _ _
  have hkperm : List.Perm ((sortBuckets bkt).map (·.1)) (keysOf bkt) := hperm.map _
  apply sorted_lt_eq_of_mem_iff
  · have hs : ((sortBuckets bkt).map (·.1.2)).Pairwise (· ≤ ·) :=
      List.pairwise_map.mpr ((List.sorted_insertionSort bucketLE bkt).imp (fun hh => hh))
    have hconst : ∀ k ∈ (sortBuckets bkt).map (·.1), k.1 = rt0 := by
      intro k hk
      obtain ⟨r, _, hrt, hkey⟩ := (hmem k).mp (hkperm.mem_iff.mp hk)
      rw [hkey, hrt]
    have hndk : ((sortBuckets bkt).map (·.1)).Nodup := hkperm.nodup_iff.mpr hnd
    have hnds : ((sortBuckets bkt).map (·.1.2)).Nodup := by
      have heq : (sortBuckets bkt).map (·.1.2) =
          ((sortBuckets bkt).map (·.1)).map (·.2) := by
        rw [List.map_map]
        rfl
      rw [heq]
      refine hndk.map_on ?_
      intro x hx y hy hxy
      have : x.1 = y.1 := by rw [hconst x hx, hconst y hy]
      exact Prod.ext this hxy
    exact (hs.and hnds).imp (fun hh => lt_of_le_of_ne hh.1 hh.2)
  · have hs : (specSortedIndices rules rt0).Pairwise (· ≤ ·) :=
      List.sorted_insertionSort _ _
    have hnds : (specSortedIndices rules rt0).Nodup :=
      (List.perm_insertionSort _ _).nodup_iff.mpr (List.nodup_dedup _)
    exact (hs.and hnds).imp (fun hh => lt_of_le_of_ne hh.1 hh.2)
  · intro x
    constructor
    · intro hx
      obtain ⟨en, hen, hx⟩ := List.mem_map.mp hx
      obtain ⟨r, hr, hrt, hkey⟩ :=
        (hmem en.1).mp (hkperm.mem_iff.mp (List.mem_map.mpr ⟨en, hen, rfl⟩))
      have hidx : r.blockIndex = x := by rw [← hx, hkey]
      simp only [specSortedIndices, List.mem_insertionSort, List.mem_dedup, List.mem_map,
        List.mem_filter]
      exact ⟨r, ⟨hr, by simp [hrt]⟩, hidx⟩
    · intro hx
      simp only [specSortedIndices, List.mem_insertionSort, List.mem_dedup, List.mem_map,
        List.mem_filter] at hx
      obtain ⟨r, ⟨hr, hrt⟩, hidx⟩ := hx
      have hrt : r.ruleType = rt0 := by simpa using hrt
      have hkey : (r.ruleType, r.blockIndex) ∈ keysOf bkt :=
        (hmem _).mpr ⟨r, hr, hrt, rfl⟩
      obtain ⟨en, hen, heq⟩ := List.mem_map.mp (hkperm.mem_iff.mpr hkey)
      refine List.mem_map.mpr ⟨en, hen, ?_⟩
      rw [show en.1.2 = (r.ruleType, r.blockIndex).2 from by rw [heq]]
      exact hidx

/-- C3 -- assembler block ordering: for every flat rule list (well-typed
rule types), within each bucket the assembler groups rules by block
index and emits exactly one block per distinct index that has rules, in
ascending numeric index order; index gaps produce no block, so the key
sequence of each sorted bucket is exactly the sorted distinct index list
of that side's rules. -/
theorem assemble_block_ordering (rules : List Rule)
    (h : ∀ r ∈ rules, r.ruleType = "include" ∨ r.ruleType = "exclude") :
    (sortBuckets (bucketize rules).1).map (·.1.2) = specSortedIndices rules "include" ∧
      (sortBuckets (bucketize rules).2).map (·.1.2) = specSortedIndices rules "exclude" ∧
      (assemble rules).includeBlocks = (sortBuckets (bucketize rules).1).map (·.2) ∧
      (assemble rules).excludeBlocks = (sortBuckets (bucketize rules).2).map (·.2) := by
  obtain ⟨hk1, hk2, hnd1, hnd2⟩ := bucketize_fold_keys rules ([], [])
  refine ⟨?_, ?_, rfl, rfl⟩
  · refine sorted_bucket_idx_eq _ _ _ (by rw [bucketize_eq_foldl]; exact hnd1 (by simp [keysOf]))
      ?_
    intro key
    rw [bucketize_eq_foldl, hk1 key]
    simp [keysOf]
  · refine sorted_bucket_idx_eq _ _ _ (by rw [bucketize_eq_foldl]; exact hnd2 (by simp [keysOf]))
      ?_
    intro key
    rw [bucketize_eq_foldl, hk2 key]
    simp only [keysOf, List.map_nil, List.not_mem_nil, false_or]
    constructor
    · rintro ⟨r, hr, hrt, hkey⟩
      rcases h r hr with h1 | h1
      · exact absurd h1 hrt
      · exact ⟨r, hr, h1, hkey⟩
    · rintro ⟨r, hr, hrt, hkey⟩
      refine ⟨r, hr, ?_, hkey⟩
      rw [hrt]
      decide

/-- C3 witness -- the ordering statement at a concrete sparse,
out-of-order rule list. -/
theorem assemble_block_ordering_witness :
    (sortBuckets (bucketize [⟨"include", "tags", "a", 5⟩, ⟨"exclude", "tags", "b", 2⟩,
        ⟨"include", "tags", "c", 2⟩]).1).map (·.1.2) =
      specSortedIndices [⟨"include", "tags", "a", 5⟩, ⟨"exclude", "tags", "b", 2⟩,
        ⟨"include", "tags", "c", 2⟩] "include" ∧
    (sortBuckets (bucketize [⟨"include", "tags", "a", 5⟩, ⟨"exclude", "tags", "b", 2⟩,
        ⟨"include", "tags", "c", 2⟩]).2).map (·.1.2) =
      specSortedIndices [⟨"include", "tags", "a", 5⟩, ⟨"exclude", "tags", "b", 2⟩,
        ⟨"include", "tags", "c", 2⟩] "exclude" ∧
    (assemble [⟨"include", "tags", "a", 5⟩, ⟨"exclude", "tags", "b", 2⟩,
        ⟨"include", "tags", "c", 2⟩]).includeBlocks =
      (sortBuckets (bucketize [⟨"include", "tags", "a", 5⟩, ⟨"exclude", "tags", "b", 2⟩,
        ⟨"include", "tags", "c", 2⟩]).1).map (·.2) ∧
    (assemble [⟨"include", "tags", "a", 5⟩, ⟨"exclude", "tags", "b", 2⟩,
        ⟨"include", "tags", "c", 2⟩]).excludeBlocks =
      (sortBuckets (bucketize [⟨"include", "tags", "a", 5⟩, ⟨"exclude", "tags", "b", 2⟩,
        ⟨"include", "tags", "c", 2⟩]).2).map (·.2) :=
  assemble_block_ordering _ (by decide)

/-!
Round-trip (C1).  The write path inserts rules in block order with
ascending indices (tags, then names, then urls within a block); the
read path re-sorts the rows by `(rule_type, block_index, match_type)`
and reassembles blocks.  The next lemmas characterise a stable
insertion sort on inputs made of ordered segments.
-/

theorem orderedInsert_append_of_not_le {α : Type} (r : α → α → Prop) [DecidableRel r]
    {x : α} {ys : List α} (h : ∀ y ∈ ys, ¬ r x y) (zs : List α) :
    List.orderedInsert r x (ys ++ zs) = ys ++ List.orderedInsert r x zs := by
  induction ys with
  | nil => rfl
  | cons y ys ih =>
      rw [List.cons_append, List.orderedInsert, if_neg (h y (List.mem_cons_self ..)),
        ih (fun a ha => h a (List.mem_cons_of_mem _ ha)), List.cons_append]

theorem orderedInsert_append_of_le {α : Type} (r : α → α → Prop) [DecidableRel r]
    {x : α} {ys : List α} (h : ∀ y ∈ ys, r x y) (zs : List α) :
    List.orderedInsert r x (zs ++ ys) = List.orderedInsert r x zs ++ ys := by
  induction zs with
  | nil =>
      cases ys with
      | nil => rfl
      | cons y ys =>
          rw [List.nil_append, List.orderedInsert_of_le r ys (h y (List.mem_cons_self ..))]
          rfl
  | cons z zs ih =>
      rw [List.cons_append, List.orderedInsert, List.orderedInsert]
      by_cases hz : r x z
      · rw [if_pos hz, if_pos hz, List.cons_append, List.cons_append]
      · rw [if_neg hz, if_neg hz, ih, List.cons_append]

theorem insertionSort_append_of_le {α : Type} (r : α → α → Prop) [DecidableRel r]
    {xs ys : List α} (h : ∀ x ∈ xs, ∀ y ∈ ys, r x y) :
    List.insertionSort r (xs ++ ys) =
      List.insertionSort r xs ++ List.insertionSort r ys := by
  induction xs with
  | nil => rfl
  | cons x xs ih =>
      rw [List.cons_append, List.insertionSort, List.insertionSort,
        ih (fun a ha => h a (List.mem_cons_of_mem _ ha))]
      exact orderedInsert_append_of_le r
        (fun y hy => h x (List.mem_cons_self ..) y ((List.mem_insertionSort r).mp hy)) _

theorem insertionSort_append_of_not_le {α : Type} (r : α → α → Prop) [DecidableRel r]
    {xs ys : List α} (h : ∀ x ∈ xs, ∀ y ∈ ys, ¬ r x y) :
    List.insertionSort r (xs ++ ys) =
      List.insertionSort r ys ++ List.insertionSort r xs := by
  induction xs with
  | nil => simp
  | cons x xs ih =>
      rw [List.cons_append, List.insertionSort,
        ih (fun a ha => h a (List.mem_cons_of_mem _ ha))]
      rw [orderedInsert_append_of_not_le r
        (fun y hy => h x (List.mem_cons_self ..) y ((List.mem_insertionSort r).mp hy)) _]
      rfl

theorem charListLt_asymm : ∀ {x y : List Char}, charListLt x y = true → charListLt y x = false
  | [], [], h => by simp [charListLt] at h
  | [], _ :: _, _ => rfl
  | _ :: _, [], h => by simp [charListLt] at h
  | a :: as, b :: bs, h => by
      rw [charListLt] at h
      rw [charListLt]
      by_cases hab : a < b
      · rw [if_neg (lt_asymm hab), if_pos hab]
      · rw [if_neg hab] at h
        by_cases hba : b < a
        · rw [if_pos hba] at h
          exact absurd h (by simp)
        · rw [if_neg hba] at h
          rw [if_neg hba, if_neg hab]
          exact charListLt_asymm h

theorem ruleLE_of_same_key {a b : Rule} (hr : a.ruleType = b.ruleType)
    (hi : a.blockIndex = b.blockIndex)
    (hm : charListLt b.matchType.data a.matchType.data = false) : ruleLE a b := by
  rw [ruleLE, ruleLeB, hr, hi, charListLt_irrefl, if_neg (by simp), if_neg (by simp),
    if_neg (lt_irrefl _), if_neg (lt_irrefl _), hm]
  rfl

theorem not_ruleLE_of_gt_mt {a b : Rule} (hr : a.ruleType = b.ruleType)
    (hi : a.blockIndex = b.blockIndex)
    (hm : charListLt b.matchType.data a.matchType.data = true) : ¬ ruleLE a b := by
  rw [ruleLE, ruleLeB, hr, hi, charListLt_irrefl, if_neg (by simp), if_neg (by simp),
    if_neg (lt_irrefl _), if_neg (lt_irrefl _), hm]
  simp

theorem ruleLE_of_lt_idx {a b : Rule} (hr : a.ruleType = b.ruleType)
    (hi : a.blockIndex < b.blockIndex) : ruleLE a b := by
  rw [ruleLE, ruleLeB, hr, charListLt_irrefl, if_neg (by simp), if_neg (by simp),
    if_pos hi]

theorem not_ruleLE_of_gt_rt {a b : Rule}
    (h : charListLt b.ruleType.data a.ruleType.data = true) : ¬ ruleLE a b := by
  rw [ruleLE, ruleLeB, if_neg (by rw [charListLt_asymm h]; simp), if_pos h]
  simp

/-- The rows of one submitted block as they come back out of the SQL
sort: `match_type` ascending, i.e. names, then tags, then urls. -/
def sortedBlockRules (rt : String) (bi : Int) (b : SubmittedBlock) : List Rule :=
  fieldRules rt bi "names" b.names ++ fieldRules rt bi "tags" b.tags ++
    fieldRules rt bi "urls" b.urls

/-- One side's rows after the SQL sort: block by block in index order,
each block's rows in `match_type` order. -/
def sortedFlattenFrom (rt : String) (bi : Int) : List SubmittedBlock → List Rule
  | [] => []
  | b :: bs => sortedBlockRules rt bi b ++ sortedFlattenFrom rt (bi + 1) bs

theorem mem_fieldRules_parts {r : Rule} {rt : String} {bi : Int} {mt : String}
    {o : Option (List String)} (h : r ∈ fieldRules rt bi mt o) :
    r.ruleType = rt ∧ r.blockIndex = bi ∧ r.matchType = mt := by
  cases o with
  | none => simp [fieldRules] at h
  | some vs =>
      simp only [fieldRules, List.mem_map] at h
      obtain ⟨v, _, rfl⟩ := h
      exact ⟨rfl, rfl, rfl⟩

theorem mem_blockRules_parts {r : Rule} {rt : String} {bi : Int} {b : SubmittedBlock}
    (h : r ∈ blockRules rt bi b) : r.ruleType = rt ∧ r.blockIndex = bi := by
  rw [blockRules] at h
  rw [List.mem_append, List.mem_append] at h
  rcases h with (h | h) | h <;>
    exact ⟨(mem_fieldRules_parts h).1, (mem_fieldRules_parts h).2.1⟩

theorem mem_sortedBlockRules_parts {r : Rule} {rt : String} {bi : Int} {b : SubmittedBlock}
    (h : r ∈ sortedBlockRules rt bi b) : r.ruleType = rt ∧ r.blockIndex = bi := by
  rw [sortedBlockRules] at h
  rw [List.mem_append, List.mem_append] at h
  rcases h with (h | h) | h <;>
    exact ⟨(mem_fieldRules_parts h).1, (mem_fieldRules_parts h).2.1⟩

theorem mem_flattenFrom_parts {r : Rule} {rt : String} :
    ∀ {bs : List SubmittedBlock} {bi : Int}, r ∈ flattenFrom rt bi bs →
      r.ruleType = rt ∧ bi ≤ r.blockIndex := by
  intro bs
  induction bs with
  | nil => intro bi h; simp [flattenFrom] at h
  | cons b bs ih =>
      intro bi h
      rw [flattenFrom, List.mem_append] at h
      rcases h with h | h
      · obtain ⟨h1, h2⟩ := mem_blockRules_parts h
        exact ⟨h1, le_of_eq h2.symm⟩
      · obtain ⟨h1, h2⟩ := ih h
        exact ⟨h1, by omega⟩

theorem mem_sortedFlattenFrom_parts {r : Rule} {rt : String} :
    ∀ {bs : List SubmittedBlock} {bi : Int}, r ∈ sortedFlattenFrom rt bi bs →
      r.ruleType = rt ∧ bi ≤ r.blockIndex := by
  intro bs
  induction bs with
  | nil => intro bi h; simp [sortedFlattenFrom] at h
  | cons b bs ih =>
      intro bi h
      rw [sortedFlattenFrom, List.mem_append] at h
      rcases h with h | h
      · obtain ⟨h1, h2⟩ := mem_sortedBlockRules_parts h
        exact ⟨h1, le_of_eq h2.symm⟩
      · obtain ⟨h1, h2⟩ := ih h
        exact ⟨h1, by omega⟩

theorem pairwise_of_const {α : Type} {R : α → α → Prop} (h : ∀ a b, R a b) :
    ∀ l : List α, l.Pairwise R
  | [] => .nil
  | a :: l => .cons (fun b _ => h a b) (pairwise_of_const h l)

theorem sorted_fieldRules (rt : String) (bi : Int) (mt : String)
    (o : Option (List String)) : List.Sorted ruleLE (fieldRules rt bi mt o) := by
  cases o with
  | none => exact .nil
  | some vs =>
      refine List.pairwise_map.mpr (pairwise_of_const (fun a b => ?_) vs)
      exact ruleLE_of_same_key rfl rfl (charListLt_irrefl _)

theorem sqlSort_blockRules (rt : String) (bi : Int) (b : SubmittedBlock) :
    sqlSort (blockRules rt bi b) = sortedBlockRules rt bi b := by
  have cUT : charListLt "urls".data "tags".data = false := rfl
  have cUN : charListLt "urls".data "names".data = false := rfl
  have cNT : charListLt "names".data "tags".data = true := rfl
  have hTNU : ∀ x ∈ fieldRules rt bi "tags" b.tags ++ fieldRules rt bi "names" b.names,
      ∀ y ∈ fieldRules rt bi "urls" b.urls, ruleLE x y := by
    intro x hx y hy
    obtain ⟨hy1, hy2, hy3⟩ := mem_fieldRules_parts hy
    rcases List.mem_append.mp hx with hx | hx
    · obtain ⟨hx1, hx2, hx3⟩ := mem_fieldRules_parts hx
      refine ruleLE_of_same_key (by rw [hx1, hy1]) (by rw [hx2, hy2]) ?_
      rw [hx3, hy3, cUT]
    · obtain ⟨hx1, hx2, hx3⟩ := mem_fieldRules_parts hx
      refine ruleLE_of_same_key (by rw [hx1, hy1]) (by rw [hx2, hy2]) ?_
      rw [hx3, hy3, cUN]
  have hTN : ∀ x ∈ fieldRules rt bi "tags" b.tags,
      ∀ y ∈ fieldRules rt bi "names" b.names, ¬ ruleLE x y := by
    intro x hx y hy
    obtain ⟨hx1, hx2, hx3⟩ := mem_fieldRules_parts hx
    obtain ⟨hy1, hy2, hy3⟩ := mem_fieldRules_parts hy
    refine not_ruleLE_of_gt_mt (by rw [hx1, hy1]) (by rw [hx2, hy2]) ?_
    rw [hx3, hy3, cNT]
  rw [sqlSort, blockRules, insertionSort_append_of_le ruleLE hTNU,
    insertionSort_append_of_not_le ruleLE hTN,
    (sorted_fieldRules rt bi "tags" b.tags).insertionSort_eq,
    (sorted_fieldRules rt bi "names" b.names).insertionSort_eq,
    (sorted_fieldRules rt bi "urls" b.urls).insertionSort_eq,
    sortedBlockRules]

theorem sqlSort_flattenFrom (rt : String) :
    ∀ (bs : List SubmittedBlock) (bi : Int),
      sqlSort (flattenFrom rt bi bs) = sortedFlattenFrom rt bi bs
  | [], _ => rfl
  | b :: bs, bi => by
      have hblock : ∀ x ∈ blockRules rt bi b, ∀ y ∈ flattenFrom rt (bi + 1) bs,
          ruleLE x y := by
        intro x hx y hy
        obtain ⟨hx1, hx2⟩ := mem_blockRules_parts hx
        obtain ⟨hy1, hy2⟩ := mem_flattenFrom_parts hy
        exact ruleLE_of_lt_idx (by rw [hx1, hy1]) (by omega)
      rw [flattenFrom, sqlSort, insertionSort_append_of_le ruleLE hblock]
      rw [show List.insertionSort ruleLE (blockRules rt bi b) =
        sqlSort (blockRules rt bi b) from rfl]
      rw [show List.insertionSort ruleLE (flattenFrom rt (bi + 1) bs) =
        sqlSort (flattenFrom rt (bi + 1) bs) from rfl]
      rw [sqlSort_blockRules, sqlSort_flattenFrom rt bs (bi + 1), sortedFlattenFrom]

theorem sqlSort_groupRules (inc exc : List SubmittedBlock) :
    sqlSort (groupRulesOf inc exc) =
      sortedFlattenFrom "exclude" 0 exc ++ sortedFlattenFrom "include" 0 inc := by
  have cEI : charListLt "exclude".data "include".data = true := rfl
  have hIE : ∀ x ∈ flattenFrom "include" 0 inc, ∀ y ∈ flattenFrom "exclude" 0 exc,
      ¬ ruleLE x y := by
    intro x hx y hy
    obtain ⟨hx1, _⟩ := mem_flattenFrom_parts hx
    obtain ⟨hy1, _⟩ := mem_flattenFrom_parts hy
    refine not_ruleLE_of_gt_rt ?_
    rw [hx1, hy1, cEI]
  rw [groupRulesOf, sqlSort, insertionSort_append_of_not_le ruleLE hIE]
  rw [show List.insertionSort ruleLE (flattenFrom "exclude" 0 exc) =
    sqlSort (flattenFrom "exclude" 0 exc) from rfl]
  rw [show List.insertionSort ruleLE (flattenFrom "include" 0 inc) =
    sqlSort (flattenFrom "include" 0 inc) from rfl]
  rw [sqlSort_flattenFrom, sqlSort_flattenFrom]

/-- The per-rule action of the bucketing loop on its own bucket. -/
def addRuleStep (bs : Buckets) (r : Rule) : Buckets :=
  addRule bs (r.ruleType, r.blockIndex) r.matchType r.matchValue

/-- The block built by pushing a run of rules into one fresh block. -/
def blockFold (chunk : List Rule) : Block :=
  chunk.foldl (fun bl r => addValue bl r.matchType r.matchValue) []

/-- The emitted form of one submitted field: absent when the field is
absent or empty, else the field under its match-type name. -/
def outField (mt : String) : Option (List String) → Block
  | some (v :: vs) => [(mt, v :: vs)]
  | _ => []

/-- The block the read path emits for one submitted block: non-empty
fields only, in the match-type order of the SQL sort. -/
def toOutBlock (b : SubmittedBlock) : Block :=
  outField "names" b.names ++ outField "tags" b.tags ++ outField "urls" b.urls

/-- The bucket association list one side's sorted rule stream builds:
one entry per submitted block, in submission order. -/
def sideAssoc (rt : String) (bi : Int) : List SubmittedBlock → Buckets
  | [] => []
  | b :: bs => ((rt, bi), toOutBlock b) :: sideAssoc rt (bi + 1) bs

/-- Well-formedness, first half: all three fields submitted as arrays. -/
def presentArrays (b : SubmittedBlock) : Prop :=
  b.tags.isSome ∧ b.names.isSome ∧ b.urls.isSome

/-- Well-formedness, second half: at least one field is non-empty. -/
def hasSomeValue (b : SubmittedBlock) : Prop :=
  b.tags.getD [] ≠ [] ∨ b.names.getD [] ≠ [] ∨ b.urls.getD [] ≠ []

theorem foldl_bucketStep_all_include :
    ∀ (rs : List Rule) (acc : Buckets × Buckets),
      (∀ r ∈ rs, r.ruleType = "include") →
      rs.foldl bucketStep acc = (rs.foldl addRuleStep acc.1, acc.2)
  | [], acc, _ => rfl
  | r :: rs, acc, h => by
      rw [List.foldl_cons, List.foldl_cons, bucketStep,
        if_pos (h r (List.mem_cons_self ..)),
        foldl_bucketStep_all_include rs _ (fun x hx => h x (List.mem_cons_of_mem _ hx))]
      rfl

theorem foldl_bucketStep_all_not_include :
    ∀ (rs : List Rule) (acc : Buckets × Buckets),
      (∀ r ∈ rs, r.ruleType ≠ "include") →
      rs.foldl bucketStep acc = (acc.1, rs.foldl addRuleStep acc.2)
  | [], acc, _ => rfl
  | r :: rs, acc, h => by
      rw [List.foldl_cons, List.foldl_cons, bucketStep,
        if_neg (h r (List.mem_cons_self ..)),
        foldl_bucketStep_all_not_include rs _ (fun x hx => h x (List.mem_cons_of_mem _ hx))]
      rfl

theorem addRule_fresh {bs : Buckets} {key : String × Int} (mt v : String)
    (h : key ∉ keysOf bs) : addRule bs key mt v = bs ++ [(key, addValue [] mt v)] := by
  induction bs with
  | nil => rfl
  | cons e rest ih =>
      obtain ⟨k, blk⟩ := e
      have hk : k ≠ key := by
        intro he
        exact h (by simp [keysOf, he])
      rw [addRule, if_neg hk,
        ih (fun hm => h (by simp only [keysOf, List.map_cons, List.mem_cons]; right; exact hm))]
      rfl

theorem addRule_last {bs : Buckets} {key : String × Int} (blk : Block) (mt v : String)
    (h : key ∉ keysOf bs) :
    addRule (bs ++ [(key, blk)]) key mt v = bs ++ [(key, addValue blk mt v)] := by
  induction bs with
  | nil => rw [List.nil_append, List.nil_append, addRule, if_pos rfl]
  | cons e rest ih =>
      obtain ⟨k, blk2⟩ := e
      have hk : k ≠ key := by
        intro he
        exact h (by simp [keysOf, he])
      rw [List.cons_append, addRule, if_neg hk,
        ih (fun hm => h (by simp only [keysOf, List.map_cons, List.mem_cons]; right; exact hm))]
      rfl

theorem foldl_addRuleStep_existing :
    ∀ (chunk : List Rule) (blk : Block) {bs : Buckets} {key : String × Int},
      (∀ r ∈ chunk, (r.ruleType, r.blockIndex) = key) → key ∉ keysOf bs →
      chunk.foldl addRuleStep (bs ++ [(key, blk)]) =
        bs ++ [(key, chunk.foldl (fun bl r => addValue bl r.matchType r.matchValue) blk)]
  | [], blk, _, _, _, _ => rfl
  | r :: rest, blk, bs, key, h1, h2 => by
      rw [List.foldl_cons, List.foldl_cons]
      rw [show addRuleStep (bs ++ [(key, blk)]) r =
        addRule (bs ++ [(key, blk)]) (r.ruleType, r.blockIndex) r.matchType r.matchValue
        from rfl]
      rw [h1 r (List.mem_cons_self ..), addRule_last blk r.matchType r.matchValue h2]
      exact foldl_addRuleStep_existing rest _
        (fun x hx => h1 x (List.mem_cons_of_mem _ hx)) h2

theorem foldl_addRuleStep_fresh (chunk : List Rule) {bs : Buckets} {key : String × Int}
    (h1 : ∀ r ∈ chunk, (r.ruleType, r.blockIndex) = key) (h2 : key ∉ keysOf bs)
    (hne : chunk ≠ []) :
    chunk.foldl addRuleStep bs = bs ++ [(key, blockFold chunk)] := by
  cases chunk with
  | nil => exact absurd rfl hne
  | cons r rest =>
      rw [List.foldl_cons]
      rw [show addRuleStep bs r =
        addRule bs (r.ruleType, r.blockIndex) r.matchType r.matchValue from rfl]
      rw [h1 r (List.mem_cons_self ..), addRule_fresh r.matchType r.matchValue h2]
      rw [foldl_addRuleStep_existing rest _ (fun x hx => h1 x (List.mem_cons_of_mem _ hx)) h2]
      rfl

theorem addValue_fresh {blk : Block} {mt : String} (v : String)
    (h : mt ∉ blk.map (·.1)) : addValue blk mt v = blk ++ [(mt, [v])] := by
  induction blk with
  | nil => rfl
  | cons e rest ih =>
      obtain ⟨k, vs⟩ := e
      have hk : k ≠ mt := by
        intro he
        exact h (by simp [he])
      rw [addValue, if_neg hk,
        ih (fun hm => h (by simp only [List.map_cons, List.mem_cons]; right; exact hm))]
      rfl

theorem addValue_last {blk : Block} {mt : String} (vs0 : List String) (v : String)
    (h : mt ∉ blk.map (·.1)) :
    addValue (blk ++ [(mt, vs0)]) mt v = blk ++ [(mt, vs0 ++ [v])] := by
  induction blk with
  | nil => rw [List.nil_append, List.nil_append, addValue, if_pos rfl]
  | cons e rest ih =>
      obtain ⟨k, vs⟩ := e
      have hk : k ≠ mt := by
        intro he
        exact h (by simp [he])
      rw [List.cons_append, addValue, if_neg hk,
        ih (fun hm => h (by simp only [List.map_cons, List.mem_cons]; right; exact hm))]
      rfl

theorem foldl_addValue_existing :
    ∀ (vs : List String) (vs0 : List String) {blk : Block} {mt : String},
      mt ∉ blk.map (·.1) →
      vs.foldl (fun bl v => addValue bl mt v) (blk ++ [(mt, vs0)]) =
        blk ++ [(mt, vs0 ++ vs)]
  | [], vs0, _, _, _ => by simp
  | v :: vs, vs0, blk, mt, h => by
      rw [List.foldl_cons, addValue_last vs0 v h,
        foldl_addValue_existing vs (vs0 ++ [v]) h]
      simp

theorem foldl_addValue_fieldChunk (rt : String) (bi : Int) {mt : String} {blk : Block}
    (h : mt ∉ blk.map (·.1)) (o : Option (List String)) :
    (fieldRules rt bi mt o).foldl (fun bl r => addValue bl r.matchType r.matchValue) blk =
      blk ++ outField mt o := by
  cases o with
  | none => simp [fieldRules, outField]
  | some vs =>
      cases vs with
      | nil => simp [fieldRules, outField]
      | cons v vs =>
          rw [fieldRules, List.foldl_map]
          show (v :: vs).foldl (fun bl w => addValue bl mt w) blk = _
          rw [List.foldl_cons, addValue_fresh v h, foldl_addValue_existing vs [v] h]
          rfl

theorem mem_keys_outField {k mt : String} {o : Option (List String)}
    (h : k ∈ (outField mt o).map (·.1)) : k = mt := by
  cases o with
  | none => simp [outField] at h
  | some vs =>
      cases vs with
      | nil => simp [outField] at h
      | cons v vs => simpa [outField] using h

theorem blockFold_sortedBlockRules (rt : String) (bi : Int) (b : SubmittedBlock) :
    blockFold (sortedBlockRules rt bi b) = toOutBlock b := by
  rw [blockFold, sortedBlockRules, List.foldl_append, List.foldl_append]
  rw [foldl_addValue_fieldChunk rt bi (by simp) b.names, List.nil_append]
  rw [foldl_addValue_fieldChunk rt bi
    (fun hm => by have := mem_keys_outField hm; simp at this) b.tags]
  rw [foldl_addValue_fieldChunk rt bi ?_ b.urls]
  · rfl
  · intro hm
    rw [List.map_append, List.mem_append] at hm
    rcases hm with hm | hm
    · have := mem_keys_outField hm
      simp at this
    · have := mem_keys_outField hm
      simp at this

theorem fieldRules_eq_nil_iff {rt : String} {bi : Int} {mt : String}
    {o : Option (List String)} : fieldRules rt bi mt o = [] ↔ o.getD [] = [] := by
  cases o with
  | none => simp [fieldRules]
  | some vs => simp [fieldRules]

theorem sortedBlockRules_ne_nil {rt : String} {bi : Int} {b : SubmittedBlock}
    (h : hasSomeValue b) : sortedBlockRules rt bi b ≠ [] := by
  intro he
  rw [sortedBlockRules, List.append_eq_nil, List.append_eq_nil] at he
  obtain ⟨⟨hn, ht⟩, hu⟩ := he
  rcases h with h | h | h
  · exact h (fieldRules_eq_nil_iff.mp ht)
  · exact h (fieldRules_eq_nil_iff.mp hn)
  · exact h (fieldRules_eq_nil_iff.mp hu)

theorem foldl_side (rt : String) :
    ∀ (bs : List SubmittedBlock) (bi : Int) (acc : Buckets),
      (∀ key ∈ keysOf acc, key.2 < bi) → (∀ b ∈ bs, hasSomeValue b) →
      (sortedFlattenFrom rt bi bs).foldl addRuleStep acc = acc ++ sideAssoc rt bi bs
  | [], bi, acc, _, _ => by simp [sortedFlattenFrom, sideAssoc]
  | b :: bs, bi, acc, hkeys, hval => by
      rw [sortedFlattenFrom, List.foldl_append]
      have hkey_not : (rt, bi) ∉ keysOf acc := by
        intro hmem
        exact absurd (hkeys _ hmem) (by simp)
      have hchunk_key : ∀ x ∈ sortedBlockRules rt bi b,
          (x.ruleType, x.blockIndex) = (rt, bi) := by
        intro x hx
        obtain ⟨h1, h2⟩ := mem_sortedBlockRules_parts hx
        rw [h1, h2]
      rw [foldl_addRuleStep_fresh _ hchunk_key hkey_not
        (sortedBlockRules_ne_nil (hval b (List.mem_cons_self ..)))]
      rw [blockFold_sortedBlockRules]
      have hkeys2 : ∀ key ∈ keysOf (acc ++ [((rt, bi), toOutBlock b)]), key.2 < bi + 1 := by
        intro key hkey
        rw [keysOf, List.map_append, List.mem_append] at hkey
        rcases hkey with hk | hk
        · exact lt_trans (hkeys key hk) (by omega)
        · simp only [List.map_cons, List.map_nil, List.mem_singleton] at hk
          rw [hk]
          simp
      rw [foldl_side rt bs (bi + 1) _ hkeys2
        (fun x hx => hval x (List.mem_cons_of_mem _ hx))]
      rw [sideAssoc, List.append_assoc, List.singleton_append]

theorem bucketize_sorted_stream (inc exc : List SubmittedBlock)
    (hinc : ∀ b ∈ inc, hasSomeValue b) (hexc : ∀ b ∈ exc, hasSomeValue b) :
    bucketize (sortedFlattenFrom "exclude" 0 exc ++ sortedFlattenFrom "include" 0 inc) =
      (sideAssoc "include" 0 inc, sideAssoc "exclude" 0 exc) := by
  have hexcrt : ∀ r ∈ sortedFlattenFrom "exclude" 0 exc, r.ruleType ≠ "include" := by
    intro r hr
    rw [(mem_sortedFlattenFrom_parts hr).1]
    decide
  have hincrt : ∀ r ∈ sortedFlattenFrom "include" 0 inc, r.ruleType = "include" :=
    fun r hr => (mem_sortedFlattenFrom_parts hr).1
  rw [bucketize_eq_foldl, List.foldl_append,
    foldl_bucketStep_all_not_include _ _ hexcrt,
    foldl_side "exclude" exc 0 [] (by simp [keysOf]) hexc,
    foldl_bucketStep_all_include _ _ hincrt,
    foldl_side "include" inc 0 [] (by simp [keysOf]) hinc]
  rfl

theorem mem_sideAssoc_idx {rt : String} :
    ∀ {bs : List SubmittedBlock} {bi : Int} {en : (String × Int) × Block},
      en ∈ sideAssoc rt bi bs → bi ≤ en.1.2 := by
  intro bs
  induction bs with
  | nil => intro bi en h; simp [sideAssoc] at h
  | cons b bs ih =>
      intro bi en h
      rw [sideAssoc] at h
      rcases List.mem_cons.mp h with rfl | h
      · simp
      · have := ih h
        omega

theorem sorted_sideAssoc (rt : String) :
    ∀ (bs : List SubmittedBlock) (bi : Int), List.Sorted bucketLE (sideAssoc rt bi bs)
  | [], _ => .nil
  | b :: bs, bi => by
      rw [sideAssoc]
      refine List.Pairwise.cons (fun en hen => ?_) (sorted_sideAssoc rt bs (bi + 1))
      have := mem_sideAssoc_idx hen
      show bi ≤ en.1.2
      omega

theorem map_snd_sideAssoc (rt : String) :
    ∀ (bs : List SubmittedBlock) (bi : Int),
      (sideAssoc rt bi bs).map (·.2) = bs.map toOutBlock
  | [], _ => rfl
  | b :: bs, bi => by
      rw [sideAssoc, List.map_cons, List.map_cons, map_snd_sideAssoc rt bs (bi + 1)]

/-- C1 (amended) -- round-trip up to empty-field omission: for every
well-formed submitted group (all three fields present as arrays, every
block non-empty in at least one field), reading back the rows written by
the group write path yields the submitted group with block order
preserved on both sides, where each block comes back with exactly its
non-empty fields (empty fields are omitted, not returned as empty
arrays). -/
theorem group_roundtrip (inc exc : List SubmittedBlock)
    (hwf : ∀ b ∈ inc ++ exc, presentArrays b ∧ hasSomeValue b) :
    readGroupRules (groupRulesOf inc exc) =
      ⟨inc.map toOutBlock, exc.map toOutBlock⟩ := by
  have hinc : ∀ b ∈ inc, hasSomeValue b :=
    fun b hb => (hwf b (List.mem_append_left _ hb)).2
  have hexc : ∀ b ∈ exc, hasSomeValue b :=
    fun b hb => (hwf b (List.mem_append_right _ hb)).2
  rw [readGroupRules, sqlSort_groupRules, assemble,
    bucketize_sorted_stream inc exc hinc hexc]
  show AssembledGroup.mk ((sortBuckets (sideAssoc "include" 0 inc)).map (·.2))
    ((sortBuckets (sideAssoc "exclude" 0 exc)).map (·.2)) = _
  rw [show sortBuckets (sideAssoc "include" 0 inc) = sideAssoc "include" 0 inc from
      (sorted_sideAssoc "include" inc 0).insertionSort_eq,
    show sortBuckets (sideAssoc "exclude" 0 exc) = sideAssoc "exclude" 0 exc from
      (sorted_sideAssoc "exclude" exc 0).insertionSort_eq,
    map_snd_sideAssoc, map_snd_sideAssoc]

/-- C1 witness -- the amended round-trip at a concrete well-formed
group with two include blocks (order preserved) and one exclude block. -/
theorem group_roundtrip_witness :
    readGroupRules (groupRulesOf
        [⟨some ["a"], some ["n"], some []⟩, ⟨some [], some [], some ["u"]⟩]
        [⟨some ["e"], some [], some []⟩]) =
      ⟨[toOutBlock ⟨some ["a"], some ["n"], some []⟩,
        toOutBlock ⟨some [], some [], some ["u"]⟩],
       [toOutBlock ⟨some ["e"], some [], some []⟩]⟩ :=
  group_roundtrip _ _ (by
    intro b hb
    rcases hb with _ | ⟨_, _ | ⟨_, _ | ⟨_, h⟩⟩⟩
    · exact ⟨⟨rfl, rfl, rfl⟩, Or.inl (by decide)⟩
    · exact ⟨⟨rfl, rfl, rfl⟩, Or.inr (Or.inr (by decide))⟩
    · exact ⟨⟨rfl, rfl, rfl⟩, Or.inl (by decide)⟩
    · cases h)

/-- The JSON object of one submitted field: present (possibly as an
empty array) exactly when submitted as an array. -/
def jsonField (mt : String) : Option (List String) → Block
  | some vs => [(mt, vs)]
  | none => []

/-- The submitted block as a JSON object, fields in submission order. -/
def jsonBlockOf (b : SubmittedBlock) : Block :=
  jsonField "tags" b.tags ++ jsonField "names" b.names ++ jsonField "urls" b.urls

/-- JSON-object equality of blocks: identical field sets with identical
value arrays; field order inside the object is irrelevant. -/
def blockEqJ (a b : Block) : Bool :=
  (a.map (·.1)).all (fun k => a.lookup k == b.lookup k) &&
    (b.map (·.1)).all (fun k => a.lookup k == b.lookup k)

/-- JSON equality of block sequences: same length, blocks pairwise
JSON-equal in order. -/
def blocksEqJ (x y : List Block) : Bool :=
  x.length == y.length && (x.zip y).all (fun p => blockEqJ p.1 p.2)

/-- C1 counterexample -- the round-trip does not return the original
group: the well-formed submitted block with `tags` equal to `[a]` and
`names` and `urls` present as empty arrays comes back as a block with
only a `tags` field, which is not JSON-equal to the submitted block
(its `names` and `urls` fields are missing rather than empty). -/
theorem group_roundtrip_claim_fails :
    (presentArrays ⟨some ["a"], some [], some []⟩ ∧
        hasSomeValue ⟨some ["a"], some [], some []⟩) ∧
      blocksEqJ
        (readGroupRules (groupRulesOf [⟨some ["a"], some [], some []⟩] [])).includeBlocks
        ([(⟨some ["a"], some [], some []⟩ : SubmittedBlock)].map jsonBlockOf) = false := by
  refine ⟨⟨⟨rfl, rfl, rfl⟩, Or.inl (by decide)⟩, by decide⟩
